import Mathlib

/-!
Shallow embedding of the NLP project-search widget's core logic:
the match engine (`loadProjectFeeds`, `initializeFuzzySearch`-built index
and `searchFeeds`, from the search-logic source file) and the
title-to-URL resolver (`NLPURLResolver`, from `js/nlp-url-resolver.js`).
JavaScript strings are modelled as `List Char`; JavaScript objects used
as string-keyed dictionaries are modelled as functions
`List Char → Option (List Char)`.
-/

/-- A JavaScript string, modelled as its list of characters. -/
abbrev JStr := List Char

/-- JavaScript whitespace test used by `trim` (ASCII fragment). -/
def isWS (c : Char) : Bool := c.isWhitespace

/-- Model of `String.prototype.trim`: drop whitespace from both ends. -/
def jsTrim (s : JStr) : JStr :=
  ((s.dropWhile isWS).reverse.dropWhile isWS).reverse

/-- Model of `String.prototype.toLowerCase` (ASCII fragment). -/
def lowerStr (s : JStr) : JStr := s.map Char.toLower

/-- `startsWithChars needle l` holds when `l` begins with `needle`. -/
def startsWithChars : JStr → JStr → Bool
  | [], _ => true
  | _ :: _, [] => false
  | a :: as, b :: bs => a == b && startsWithChars as bs

/-- `containsChars needle l`: does `needle` occur contiguously in `l`? -/
def containsChars (needle : JStr) : JStr → Bool
  | [] => needle.isEmpty
  | c :: rest => startsWithChars needle (c :: rest) || containsChars needle rest

/-- Model of `haystack.includes(needle)`. -/
def includesStr (haystack needle : JStr) : Bool := containsChars needle haystack

/-- A parsed CSV row of the project feed (PapaParse output with
`header: true`): each column either absent or a string.  Only the
columns the normalization consults are modelled. -/
structure RawRow where
  Title : Option JStr := none
  Name : Option JStr := none
  Description : Option JStr := none
  About : Option JStr := none
  URL : Option JStr := none
  Link : Option JStr := none
  Team : Option JStr := none
  Status : Option JStr := none
  Location : Option JStr := none
  Tags : Option JStr := none
deriving DecidableEq

/-- Model of `field?.trim()` followed by JavaScript truthiness: the
trimmed value when the field is present and trims to a non-empty
string, otherwise `none` (absent field, or falsy empty string). -/
def trimNonempty (o : Option JStr) : Option JStr :=
  match o with
  | none => none
  | some s => if jsTrim s = [] then none else some (jsTrim s)

/-- Model of `a?.trim() || b?.trim() || d`. -/
def pick2 (a b : Option JStr) (d : JStr) : JStr :=
  match trimNonempty a with
  | some t => t
  | none =>
    match trimNonempty b with
    | some t => t
    | none => d

/-- Model of `a?.trim() || d`. -/
def pick1 (a : Option JStr) (d : JStr) : JStr :=
  match trimNonempty a with
  | some t => t
  | none => d

/-- A normalized project feed record, as built by `loadProjectFeeds`. -/
structure Feed where
  Title : JStr
  Description : JStr
  URL : JStr
  Team : JStr
  Status : JStr
  Location : JStr
  Tags : JStr
  raw : RawRow
deriving DecidableEq

def noTitleStr : JStr := "(No title)".data

def noDescriptionStr : JStr := "(No description)".data

def hashStr : JStr := "#".data

/-- The per-row normalization inside `loadProjectFeeds`
(`results.data.map(r => ({...}))`). -/
def normalizeRow (r : RawRow) : Feed :=
  { Title := pick2 r.Title r.Name noTitleStr
    Description := pick2 r.Description r.About noDescriptionStr
    URL := pick2 r.URL r.Link hashStr
    Team := pick1 r.Team []
    Status := pick1 r.Status []
    Location := pick1 r.Location []
    Tags := pick1 r.Tags []
    raw := r }

/-- Model of `loadProjectFeeds`'s parse-complete handler: zero rows is
reported through `onError`, otherwise every row is normalized and the
list handed to `onSuccess`. -/
def loadProjectFeeds (rows : List RawRow) : Except String (List Feed) :=
  if rows = [] then Except.error "No data found in Google Sheet."
  else Except.ok (rows.map normalizeRow)

/-- Modelled from the spec: the source delegates fuzzy matching to the
opaque third-party Fuse.js library, whose exact scoring algorithm the
spec leaves open; only its observable contract is fixed.  A `Fuse`
instance holds the indexed records, the tolerance threshold, and an
abstract distance function (lower = better) over the indexed fields. -/
structure Fuse where
  feeds : List Feed
  threshold : ℚ
  dist : JStr → Feed → ℚ

/-- A search result: the matched record, carrying a score in fuzzy
mode and no score in exact mode. -/
structure SearchResult where
  item : Feed
  score : Option ℚ
deriving DecidableEq

/-- Insert a scored record into a list sorted by ascending score. -/
def insertByScore (p : ℚ × Feed) : List (ℚ × Feed) → List (ℚ × Feed)
  | [] => [p]
  | q :: rest => if p.1 ≤ q.1 then p :: q :: rest else q :: insertByScore p rest

/-- Sort scored records by ascending score (insertion sort). -/
def sortByScore : List (ℚ × Feed) → List (ℚ × Feed)
  | [] => []
  | p :: rest => insertByScore p (sortByScore rest)

/-- Modelled from the spec: `fuseInstance.search(query)` scores each
indexed record, keeps those whose score is within the threshold, and
returns them ordered by ascending score, scores attached. -/
def fuseSearch (fu : Fuse) (query : JStr) : List SearchResult :=
  (sortByScore
    ((fu.feeds.map (fun f => (fu.dist query f, f))).filter
      (fun p => p.1 ≤ fu.threshold))).map
    (fun p => { item := p.2, score := some p.1 })

/-- Model of `window.searchFeeds(query, feeds, fuseInstance, useFuzzy)`. -/
def searchFeeds (query : JStr) (feeds : List Feed)
    (fuseInstance : Option Fuse) (useFuzzy : Bool) : List SearchResult :=
  if jsTrim query = [] then []
  else
    match useFuzzy, fuseInstance with
    | true, some fu => fuseSearch fu query
    | _, _ =>
      (feeds.filter (fun f =>
        includesStr (lowerStr f.Title) (lowerStr query) ||
        includesStr (lowerStr f.Description) (lowerStr query))).map
        (fun f => { item := f, score := none })

/-- A JavaScript object used as a string-keyed dictionary. -/
abbrev Mapping := JStr → Option JStr

def emptyMapping : Mapping := fun _ => none

/-- Model of `m[k] = v` on a dictionary object. -/
def mapSet (m : Mapping) (k v : JStr) : Mapping :=
  fun x => if x = k then some v else m x

/-- A parsed row of `lists.csv` (columns `Title` and `Feed`). -/
structure ListRow where
  Title : Option JStr := none
  Feed : Option JStr := none
deriving DecidableEq

/-- The guard `if (title && feed)` on `row.Title?.trim()` and
`row.Feed?.trim()`: the trimmed pair when both are present and
non-empty, else `none`. -/
def validPair (row : ListRow) : Option (JStr × JStr) :=
  match trimNonempty row.Title, trimNonempty row.Feed with
  | some t, some f => some (t, f)
  | _, _ => none

/-- One iteration of the `results.data.forEach(row => ...)` body:
store the slug under the exact-cased trimmed title and then under its
lowercased form; skip the row if either field is missing/blank. -/
def addRow (m : Mapping) (row : ListRow) : Mapping :=
  match validPair row with
  | some (t, f) => mapSet (mapSet m t f) (lowerStr t) f
  | none => m

/-- Model of `loadListsMapping`'s parse-complete handler: the rows are
folded into the resolver's EXISTING dictionary `this.listsMapping`
(the source never clears it before the `forEach`). -/
def loadListsMapping (m : Mapping) (rows : List ListRow) : Mapping :=
  rows.foldl addRow m

/-- The `NLPURLResolver` object state. -/
structure NLPURLResolver where
  listsMapping : Mapping
  baseURL : JStr
  isLoaded : Bool

/-- The constructor: empty mapping, base URL fixed from the page
origin, not loaded. -/
def newResolver (origin : JStr) : NLPURLResolver :=
  { listsMapping := emptyMapping
    baseURL := origin ++ "/team/projects/".data
    isLoaded := false }

/-- Model of `init()`: `fetched` is the outcome of fetching and
parsing `lists.csv` (`none` = fetch/parse failure).  An empty row set
is rejected (`No data found in lists.csv`), so `isLoaded` stays
false; otherwise the rows are folded into the existing mapping and
`isLoaded` becomes true. -/
def NLPURLResolver.init (r : NLPURLResolver)
    (fetched : Option (List ListRow)) : NLPURLResolver :=
  match fetched with
  | none => { r with isLoaded := false }
  | some [] => { r with isLoaded := false }
  | some rows =>
    { r with listsMapping := loadListsMapping r.listsMapping rows
             isLoaded := true }

/-- JavaScript truthiness of a dictionary lookup result:
`undefined` and the empty string are falsy. -/
def jsTruthy : Option JStr → Bool
  | none => false
  | some s => !s.isEmpty

/-- Model of `getProjectPageURL(projectTitle, fallbackURL)`. -/
def NLPURLResolver.getProjectPageURL (r : NLPURLResolver)
    (projectTitle : JStr) (fallbackURL : JStr) : JStr :=
  if !r.isLoaded then fallbackURL
  else if projectTitle.isEmpty then fallbackURL
  else
    let slug0 := r.listsMapping (jsTrim projectTitle)
    let slug :=
      if jsTruthy slug0 then slug0
      else r.listsMapping (lowerStr (jsTrim projectTitle))
    if jsTruthy slug then
      r.baseURL ++ "#list=".data ++ slug.getD [] ++ "&display=table".data
    else fallbackURL

/-- Compatibility of two parsed `lists.csv` rows: whenever their keys
(exact or lowercased trimmed titles) can collide in the dictionary,
they carry the same slug. -/
def pairCompat (a b : Option (JStr × JStr)) : Bool :=
  match a, b with
  | some (t1, f1), some (t2, f2) =>
    !(t1 == t2 || t1 == lowerStr t2 || lowerStr t1 == t2 ||
      lowerStr t1 == lowerStr t2) || f1 == f2
  | _, _ => true

/-- A row set is compatible when no two valid rows write the same
dictionary key with different slugs. -/
def rowsCompatible (rows : List ListRow) : Prop :=
  ∀ r1 ∈ rows, ∀ r2 ∈ rows, pairCompat (validPair r1) (validPair r2) = true

instance (rows : List ListRow) : Decidable (rowsCompatible rows) := by
  unfold rowsCompatible
  infer_instance

/-- Case-insensitive compatibility of two parsed rows: rows whose
titles agree after lowercasing carry the same slug. -/
def caseCompat (a b : Option (JStr × JStr)) : Bool :=
  match a, b with
  | some (t1, f1), some (t2, f2) => !(lowerStr t1 == lowerStr t2) || f1 == f2
  | _, _ => true

/-- A row set is case-compatible when no two valid rows carry
case-insensitively equal titles with different slugs. -/
def rowsCaseCompatible (rows : List ListRow) : Prop :=
  ∀ r1 ∈ rows, ∀ r2 ∈ rows, caseCompat (validPair r1) (validPair r2) = true

instance (rows : List ListRow) : Decidable (rowsCaseCompatible rows) := by
  unfold rowsCaseCompatible
  infer_instance

/-- Does processing `row` write dictionary key `k` (as exact-cased or
lowercased trimmed title)? -/
def rowWritesKey (row : ListRow) (k : JStr) : Bool :=
  match validPair row with
  | some (t, _) => k == t || k == lowerStr t
  | none => false

/-- Concrete record used in the exact-search witness. -/
def feedDataPipeline : Feed := normalizeRow
  { Title := some "Data Pipeline".data
    Description := some "ETL tool".data }

/-- Concrete record used in the threshold-monotonicity witness. -/
def feedBlank : Feed := normalizeRow {}

/-- Concrete low-threshold fuzzy index for the monotonicity witness. -/
def fuseLow : Fuse := { feeds := [feedBlank], threshold := 0, dist := fun _ _ => 0 }

/-- Concrete high-threshold fuzzy index for the monotonicity witness. -/
def fuseHigh : Fuse := { feeds := [feedBlank], threshold := 1, dist := fun _ _ => 0 }

/-! Helper lemmas about the string model. -/

theorem char_toLower_idem (c : Char) :
    Char.toLower (Char.toLower c) = Char.toLower c := by
  simp only [Char.toLower]
  by_cases h : c.toNat ≥ 65 ∧ c.toNat ≤ 90
  · rw [if_pos h]
    rw [if_neg]
    obtain ⟨h1, h2⟩ := h
    intro hcon
    obtain ⟨h3, h4⟩ := hcon
    set n := c.toNat with hn
    clear_value n
    interval_cases n <;> revert h3 h4 <;> decide
  · simp only [if_neg h]

theorem lowerStr_idem (s : JStr) : lowerStr (lowerStr s) = lowerStr s := by
  unfold lowerStr
  rw [List.map_map]
  apply List.map_congr_left
  intro c _
  exact char_toLower_idem c

theorem lowerStr_eq_nil_iff (s : JStr) : lowerStr s = [] ↔ s = [] := by
  unfold lowerStr
  simp

theorem mem_of_dropWhile_mem {α : Type} (p : α → Bool) (l : List α) {a : α}
    (h : a ∈ l.dropWhile p) : a ∈ l := by
  induction l with
  | nil => simp at h
  | cons b bs ih =>
    rw [List.dropWhile_cons] at h
    split at h
    · exact List.mem_cons_of_mem _ (ih h)
    · exact h

theorem mem_dropWhile_of_mem {α : Type} (p : α → Bool) (l : List α) {a : α}
    (h : a ∈ l) (hp : p a = false) : a ∈ l.dropWhile p := by
  induction l with
  | nil => simp at h
  | cons b bs ih =>
    rw [List.dropWhile_cons]
    rw [List.mem_cons] at h
    rcases h with rfl | h
    · rw [hp]
      simp
    · split
      · exact ih h
      · exact List.mem_cons_of_mem _ h

theorem jsTrim_eq_nil_iff (s : JStr) :
    jsTrim s = [] ↔ ∀ c ∈ s, isWS c = true := by
  unfold jsTrim
  rw [List.reverse_eq_nil_iff, List.dropWhile_eq_nil_iff]
  constructor
  · intro h c hc
    by_cases hw : isWS c = true
    · exact hw
    · exact absurd (h c (List.mem_reverse.mpr
        (mem_dropWhile_of_mem isWS s hc (by simpa using hw)))) hw
  · intro h c hc
    exact h c (mem_of_dropWhile_mem isWS s (List.mem_reverse.mp hc))

theorem jsTrim_ne_nil_of_exists {s : JStr} (h : ∃ c ∈ s, isWS c = false) :
    jsTrim s ≠ [] := by
  rw [Ne, jsTrim_eq_nil_iff]
  intro hall
  obtain ⟨c, hc, hw⟩ := h
  rw [hall c hc] at hw
  simp at hw

/-! Helper lemmas about the lookup-table build. -/

theorem trimNonempty_some {o : Option JStr} {t : JStr}
    (h : trimNonempty o = some t) : t ≠ [] := by
  unfold trimNonempty at h
  cases o with
  | none => simp at h
  | some s =>
    dsimp at h
    split at h
    · simp at h
    · rename_i hne
      rw [Option.some_inj] at h
      subst h
      exact hne

theorem validPair_eq {row : ListRow} {t f : JStr}
    (h : validPair row = some (t, f)) :
    trimNonempty row.Title = some t ∧ trimNonempty row.Feed = some f := by
  unfold validPair at h
  cases h1 : trimNonempty row.Title with
  | none =>
    rw [h1] at h
    cases h2 : trimNonempty row.Feed <;> rw [h2] at h <;> simp at h
  | some a =>
    cases h2 : trimNonempty row.Feed with
    | none =>
      rw [h1, h2] at h
      simp at h
    | some b =>
      rw [h1, h2] at h
      simp at h
      obtain ⟨rfl, rfl⟩ := h
      exact ⟨rfl, rfl⟩

theorem validPair_props {row : ListRow} {t f : JStr}
    (h : validPair row = some (t, f)) : t ≠ [] ∧ f ≠ [] := by
  obtain ⟨h1, h2⟩ := validPair_eq h
  exact ⟨trimNonempty_some h1, trimNonempty_some h2⟩

theorem addRow_cases (m : Mapping) (row : ListRow) (k : JStr) :
    addRow m row k = m k ∨
    ∃ t f, validPair row = some (t, f) ∧ (k = t ∨ k = lowerStr t) ∧
      addRow m row k = some f := by
  unfold addRow
  cases hv : validPair row with
  | none => exact Or.inl rfl
  | some p =>
    obtain ⟨t, f⟩ := p
    unfold mapSet
    by_cases h1 : k = lowerStr t
    · exact Or.inr ⟨t, f, rfl, Or.inr h1, by simp [h1]⟩
    · by_cases h2 : k = t
      · exact Or.inr ⟨t, f, rfl, Or.inl h2, by simp [h1, h2]⟩
      · exact Or.inl (by simp [h1, h2])

theorem loadListsMapping_origin (rows : List ListRow) (m : Mapping) (k : JStr) :
    loadListsMapping m rows k = m k ∨
    ∃ row ∈ rows, ∃ t f, validPair row = some (t, f) ∧
      (k = t ∨ k = lowerStr t) ∧ loadListsMapping m rows k = some f := by
  induction rows generalizing m with
  | nil => exact Or.inl rfl
  | cons row rest ih =>
    have hstep : loadListsMapping m (row :: rest) =
        loadListsMapping (addRow m row) rest := rfl
    rw [hstep]
    rcases ih (addRow m row) with h | ⟨row2, hmem, t, f, hv, hk, he⟩
    · rw [h]
      rcases addRow_cases m row k with h2 | ⟨t, f, hv, hk, he⟩
      · exact Or.inl h2
      · exact Or.inr ⟨row, List.mem_cons_self _ _, t, f, hv, hk, he⟩
    · exact Or.inr ⟨row2, List.mem_cons_of_mem _ hmem, t, f, hv, hk, he⟩

theorem addRow_keep_some (m : Mapping) (row : ListRow) (k f : JStr)
    (hm : m k = some f)
    (h : ∀ t f2, validPair row = some (t, f2) → (k = t ∨ k = lowerStr t) → f2 = f) :
    addRow m row k = some f := by
  unfold addRow
  cases hv : validPair row with
  | none => exact hm
  | some p =>
    obtain ⟨t, f2⟩ := p
    unfold mapSet
    by_cases h1 : k = lowerStr t
    · simp only [if_pos h1]
      rw [h t f2 hv (Or.inr h1)]
    · by_cases h2 : k = t
      · simp only [if_neg h1, if_pos h2]
        rw [h t f2 hv (Or.inl h2)]
      · simp only [if_neg h1, if_neg h2]
        exact hm

theorem loadListsMapping_keep_some (rows : List ListRow) (m : Mapping) (k f : JStr)
    (hm : m k = some f)
    (h : ∀ row ∈ rows, ∀ t f2, validPair row = some (t, f2) →
      (k = t ∨ k = lowerStr t) → f2 = f) :
    loadListsMapping m rows k = some f := by
  induction rows generalizing m with
  | nil => exact hm
  | cons row rest ih =>
    have hstep : loadListsMapping m (row :: rest) =
        loadListsMapping (addRow m row) rest := rfl
    rw [hstep]
    exact ih (addRow m row)
      (addRow_keep_some m row k f hm
        (fun t f2 hv hk => h row (List.mem_cons_self _ _) t f2 hv hk))
      (fun row2 hmem t f2 hv hk => h row2 (List.mem_cons_of_mem _ hmem) t f2 hv hk)

theorem addRow_untouched (m : Mapping) (row : ListRow) (k : JStr)
    (h : ∀ t f, validPair row = some (t, f) → k ≠ t ∧ k ≠ lowerStr t) :
    addRow m row k = m k := by
  unfold addRow
  cases hv : validPair row with
  | none => rfl
  | some p =>
    obtain ⟨t, f⟩ := p
    obtain ⟨h1, h2⟩ := h t f hv
    unfold mapSet
    simp [h1, h2]

theorem loadListsMapping_untouched (rows : List ListRow) (m : Mapping) (k : JStr)
    (h : ∀ row ∈ rows, ∀ t f, validPair row = some (t, f) → k ≠ t ∧ k ≠ lowerStr t) :
    loadListsMapping m rows k = m k := by
  induction rows generalizing m with
  | nil => rfl
  | cons row rest ih =>
    have hstep : loadListsMapping m (row :: rest) =
        loadListsMapping (addRow m row) rest := rfl
    rw [hstep]
    rw [ih (addRow m row) (fun row2 hmem => h row2 (List.mem_cons_of_mem _ hmem))]
    exact addRow_untouched m row k (h row (List.mem_cons_self _ _))

theorem rowsCompatible_apply {rows : List ListRow} {r1 r2 : ListRow}
    {t1 f1 t2 f2 : JStr}
    (H : rowsCompatible rows) (m1 : r1 ∈ rows) (m2 : r2 ∈ rows)
    (h1 : validPair r1 = some (t1, f1)) (h2 : validPair r2 = some (t2, f2))
    (hc : t1 = t2 ∨ t1 = lowerStr t2 ∨ lowerStr t1 = t2 ∨ lowerStr t1 = lowerStr t2) :
    f1 = f2 := by
  have h := H r1 m1 r2 m2
  rw [h1, h2] at h
  unfold pairCompat at h
  simp only [Bool.or_eq_true, Bool.not_eq_true', beq_iff_eq, beq_eq_false_iff_ne,
    ne_eq] at h
  rcases h with h | h
  · rcases hc with hc | hc | hc | hc <;> simp [hc] at h
  · exact h

theorem mapSet_same (m : Mapping) (k v : JStr) : mapSet m k v k = some v := by
  unfold mapSet
  simp

theorem mapSet_other (m : Mapping) (k v x : JStr) (h : x ≠ k) :
    mapSet m k v x = m x := by
  unfold mapSet
  simp [h]

theorem addRow_valid (m : Mapping) (row : ListRow) {t f : JStr}
    (hv : validPair row = some (t, f)) :
    addRow m row = mapSet (mapSet m t f) (lowerStr t) f := by
  unfold addRow
  rw [hv]

theorem loadListsMapping_written (rows : List ListRow) (m : Mapping)
    {row : ListRow} {t f : JStr}
    (H : rowsCompatible rows) (hmem : row ∈ rows)
    (hv : validPair row = some (t, f)) :
    loadListsMapping m rows t = some f ∧
    loadListsMapping m rows (lowerStr t) = some f := by
  obtain ⟨pre, post, rfl⟩ := List.append_of_mem hmem
  have hsplit : ∀ k, loadListsMapping m (pre ++ row :: post) k =
      loadListsMapping (addRow (loadListsMapping m pre) row) post k := by
    intro k
    unfold loadListsMapping
    rw [List.foldl_append]
    rfl
  have hmempost : ∀ r2 ∈ post, r2 ∈ pre ++ row :: post := by
    intro r2 h2
    simp [List.mem_append, List.mem_cons, h2]
  have hrowmem : row ∈ pre ++ row :: post := by
    simp [List.mem_append, List.mem_cons]
  have hbase_t : addRow (loadListsMapping m pre) row t = some f := by
    rw [addRow_valid _ _ hv]
    by_cases h : t = lowerStr t
    · rw [← h]
      exact mapSet_same _ _ _
    · rw [mapSet_other _ _ _ _ h]
      exact mapSet_same _ _ _
  have hbase_l : addRow (loadListsMapping m pre) row (lowerStr t) = some f := by
    rw [addRow_valid _ _ hv]
    exact mapSet_same _ _ _
  constructor
  · rw [hsplit]
    apply loadListsMapping_keep_some _ _ _ _ hbase_t
    intro row2 h2 t2 f2 hv2 hk
    apply rowsCompatible_apply H (hmempost row2 h2) hrowmem hv2 hv
    rcases hk with hk | hk
    · exact Or.inl hk.symm
    · exact Or.inr (Or.inr (Or.inl hk.symm))
  · rw [hsplit]
    apply loadListsMapping_keep_some _ _ _ _ hbase_l
    intro row2 h2 t2 f2 hv2 hk
    apply rowsCompatible_apply H (hmempost row2 h2) hrowmem hv2 hv
    rcases hk with hk | hk
    · exact Or.inr (Or.inl hk.symm)
    · exact Or.inr (Or.inr (Or.inr hk.symm))

theorem loadListsMapping_nil_key (rows : List ListRow) (m : Mapping)
    (h : m [] = none) : loadListsMapping m rows [] = none := by
  rw [loadListsMapping_untouched]
  · exact h
  · intro row _ t f hv
    obtain ⟨ht, _⟩ := validPair_props hv
    refine ⟨fun he => ht he.symm, fun he => ?_⟩
    exact ht ((lowerStr_eq_nil_iff t).mp he.symm)

theorem rowsCaseCompatible_apply {rows : List ListRow} {r1 r2 : ListRow}
    {t1 f1 t2 f2 : JStr}
    (H : rowsCaseCompatible rows) (m1 : r1 ∈ rows) (m2 : r2 ∈ rows)
    (h1 : validPair r1 = some (t1, f1)) (h2 : validPair r2 = some (t2, f2))
    (hc : lowerStr t1 = lowerStr t2) : f1 = f2 := by
  have h := H r1 m1 r2 m2
  rw [h1, h2] at h
  unfold caseCompat at h
  simp only [Bool.or_eq_true, Bool.not_eq_true', beq_iff_eq, beq_eq_false_iff_ne,
    ne_eq] at h
  rcases h with h | h
  · exact absurd hc h
  · exact h

theorem rowsCaseCompatible_compatible {rows : List ListRow}
    (H : rowsCaseCompatible rows) : rowsCompatible rows := by
  intro r1 h1 r2 h2
  have hc := H r1 h1 r2 h2
  unfold caseCompat at hc
  unfold pairCompat
  cases hv1 : validPair r1 with
  | none => rfl
  | some p1 =>
    cases hv2 : validPair r2 with
    | none => rfl
    | some p2 =>
      obtain ⟨t1, f1⟩ := p1
      obtain ⟨t2, f2⟩ := p2
      rw [hv1, hv2] at hc
      by_cases hl : lowerStr t1 = lowerStr t2
      · have hf : f1 = f2 := by
          simp only [hl, beq_self_eq_true, Bool.not_true, Bool.false_or,
            beq_iff_eq] at hc
          exact hc
        simp [hf]
      · have e1 : t1 ≠ t2 := fun he => hl (by rw [he])
        have e2 : t1 ≠ lowerStr t2 := fun he => hl (by rw [he, lowerStr_idem])
        have e3 : lowerStr t1 ≠ t2 := fun he => hl (by rw [← he, lowerStr_idem])
        simp [e1, e2, e3, hl]

theorem rowWritesKey_false {row : ListRow} {k : JStr}
    (h : rowWritesKey row k = false) :
    ∀ t f, validPair row = some (t, f) → k ≠ t ∧ k ≠ lowerStr t := by
  intro t f hv
  unfold rowWritesKey at h
  rw [hv] at h
  simp only [Bool.or_eq_false_iff, beq_eq_false_iff_ne, ne_eq] at h
  exact h

/-! Helper lemmas about `getProjectPageURL` and the fuzzy engine. -/

theorem isEmpty_false_of_ne_nil {s : JStr} (h : s ≠ []) : s.isEmpty = false := by
  cases s with
  | nil => exact absurd rfl h
  | cons a as => rfl

theorem jsTruthy_some_of_ne {s : JStr} (h : s ≠ []) : jsTruthy (some s) = true := by
  unfold jsTruthy
  simp [isEmpty_false_of_ne_nil h]

theorem getPPU_found_exact (r : NLPURLResolver) (v fb s : JStr)
    (hload : r.isLoaded = true) (hv : v ≠ [])
    (hs : r.listsMapping (jsTrim v) = some s) (hsne : s ≠ []) :
    r.getProjectPageURL v fb =
      r.baseURL ++ "#list=".data ++ s ++ "&display=table".data := by
  unfold NLPURLResolver.getProjectPageURL
  simp only [hload, Bool.not_true, Bool.false_eq_true, if_false,
    isEmpty_false_of_ne_nil hv, hs, jsTruthy_some_of_ne hsne, if_true,
    Option.getD_some]

theorem getPPU_found_lower (r : NLPURLResolver) (v fb s : JStr)
    (hload : r.isLoaded = true) (hv : v ≠ [])
    (hmiss : jsTruthy (r.listsMapping (jsTrim v)) = false)
    (hs : r.listsMapping (lowerStr (jsTrim v)) = some s) (hsne : s ≠ []) :
    r.getProjectPageURL v fb =
      r.baseURL ++ "#list=".data ++ s ++ "&display=table".data := by
  unfold NLPURLResolver.getProjectPageURL
  simp only [hload, Bool.not_true, Bool.false_eq_true, if_false,
    isEmpty_false_of_ne_nil hv, hmiss, hs, jsTruthy_some_of_ne hsne, if_true,
    Option.getD_some]

theorem getPPU_miss (r : NLPURLResolver) (v fb : JStr)
    (hmiss1 : jsTruthy (r.listsMapping (jsTrim v)) = false)
    (hmiss2 : jsTruthy (r.listsMapping (lowerStr (jsTrim v))) = false) :
    r.getProjectPageURL v fb = fb := by
  unfold NLPURLResolver.getProjectPageURL
  cases hload : r.isLoaded with
  | false => simp [hload]
  | true =>
    cases hv : v.isEmpty with
    | true => simp [hload, hv]
    | false => simp [hload, hv, hmiss1, hmiss2]

theorem mem_insertByScore (p q : ℚ × Feed) (l : List (ℚ × Feed)) :
    q ∈ insertByScore p l ↔ q = p ∨ q ∈ l := by
  induction l with
  | nil => simp [insertByScore]
  | cons a as ih =>
    unfold insertByScore
    split
    · simp
    · rw [List.mem_cons, ih, List.mem_cons]
      tauto

theorem mem_sortByScore (q : ℚ × Feed) (l : List (ℚ × Feed)) :
    q ∈ sortByScore l ↔ q ∈ l := by
  induction l with
  | nil => simp [sortByScore]
  | cons a as ih =>
    unfold sortByScore
    rw [mem_insertByScore, ih, List.mem_cons]

/-! Claim theorems. -/

/-- Claim C1, counterexample: the claim that a second `init()` rebuilds
the lookup table from the new dataset alone fails.  After initializing
from a dataset containing only row `(A, x)` and re-initializing from a
dataset containing only row `(B, y)`, the table still maps `A` to `x`,
while a resolver initialized from the second dataset alone has no entry
at `A` — so an entry from the first build survives that the new dataset
does not produce. -/
theorem resolver_rebuild_counterexample :
    ((((newResolver []).init
        (some [{ Title := some "A".data, Feed := some "x".data }])).init
        (some [{ Title := some "B".data, Feed := some "y".data }])).listsMapping
      "A".data = some "x".data) ∧
    (((newResolver []).init
        (some [{ Title := some "B".data, Feed := some "y".data }])).listsMapping
      "A".data = none) := by
  decide

/-- Claim C1, amended: calling `init()` again MERGES the newly fetched
dataset into the existing lookup table rather than rebuilding it: at
every key that no row of the new dataset writes, the entry from before
the call survives unchanged (and the resolver reports loaded). -/
theorem resolver_second_init_merges (r : NLPURLResolver) (rows : List ListRow)
    (k : JStr) (hrows : rows ≠ [])
    (hk : ∀ row ∈ rows, rowWritesKey row k = false) :
    (r.init (some rows)).listsMapping k = r.listsMapping k ∧
    (r.init (some rows)).isLoaded = true := by
  cases rows with
  | nil => exact absurd rfl hrows
  | cons row rest =>
    refine ⟨?_, rfl⟩
    show loadListsMapping r.listsMapping (row :: rest) k = r.listsMapping k
    exact loadListsMapping_untouched _ _ _
      (fun row2 hmem => rowWritesKey_false (hk row2 hmem))

/-- Witness for `resolver_second_init_merges` at a concrete input: a
second `init` from a dataset writing only `B` keeps the first build's
entry at key `A`. -/
theorem resolver_second_init_merges_witness :
    ((((newResolver []).init
        (some [{ Title := some "A".data, Feed := some "x".data }])).init
        (some [{ Title := some "B".data, Feed := some "y".data }])).listsMapping
      "A".data =
      ((newResolver []).init
        (some [{ Title := some "A".data, Feed := some "x".data }])).listsMapping
      "A".data) ∧
    ((((newResolver []).init
        (some [{ Title := some "A".data, Feed := some "x".data }])).init
        (some [{ Title := some "B".data, Feed := some "y".data }])).isLoaded = true) :=
  resolver_second_init_merges _ _ _ (by decide) (by decide)

/-- Claim C2: in exact mode (`useFuzzy` false, or no index), for a
query that is not all-whitespace, `searchFeeds` returns exactly the
records whose `Title` or `Description` contains the lowercased query
as a case-insensitive substring — no other field consulted — in input
order (`List.filter` preserves order), each wrapped with no score. -/
theorem searchFeeds_exact_mode (query : JStr) (feeds : List Feed)
    (fuseInstance : Option Fuse) (useFuzzy : Bool)
    (hq : ∃ c ∈ query, isWS c = false)
    (hmode : useFuzzy = false ∨ fuseInstance = none) :
    searchFeeds query feeds fuseInstance useFuzzy =
      (feeds.filter (fun f =>
        includesStr (lowerStr f.Title) (lowerStr query) ||
        includesStr (lowerStr f.Description) (lowerStr query))).map
        (fun f => { item := f, score := none }) := by
  unfold searchFeeds
  rw [if_neg (jsTrim_ne_nil_of_exists hq)]
  rcases hmode with rfl | rfl
  · cases fuseInstance <;> rfl
  · cases useFuzzy <;> rfl

/-- Witness for `searchFeeds_exact_mode` at a concrete input: the
query `etl` against the Data Pipeline record in exact mode. -/
theorem searchFeeds_exact_mode_witness :
    searchFeeds "etl".data [feedDataPipeline] none false =
      ([feedDataPipeline].filter (fun f =>
        includesStr (lowerStr f.Title) (lowerStr "etl".data) ||
        includesStr (lowerStr f.Description) (lowerStr "etl".data))).map
        (fun f => { item := f, score := none }) :=
  searchFeeds_exact_mode _ _ _ _ (by decide) (Or.inl rfl)

/-- Claim C3: with a null/absent index, `searchFeeds` with
`useFuzzy = true` behaves identically to `useFuzzy = false` — the
`useFuzzy && fuseInstance` guard silently degrades to exact mode,
never an error (the model is a total function). -/
theorem searchFeeds_fuzzy_degrade (query : JStr) (feeds : List Feed) :
    searchFeeds query feeds none true = searchFeeds query feeds none false := rfl

/-- Claim C4, counterexample: the claim that every case variant of a
stored title resolves to the same URL fails when the reference dataset
holds two case-colliding titles with different slugs.  With rows
`(Alpha, x)` and `(ALPHA, y)`, both titles are stored, `Alpha` and
`ALPHA` are case variants of one another, yet they resolve to
different URLs (the exact-match step hits different entries). -/
theorem resolver_case_variant_counterexample :
    (lowerStr "Alpha".data = lowerStr "ALPHA".data) ∧
    (((newResolver []).init
      (some [{ Title := some "Alpha".data, Feed := some "x".data },
             { Title := some "ALPHA".data, Feed := some "y".data }])).listsMapping
      "Alpha".data = some "x".data) ∧
    (((newResolver []).init
      (some [{ Title := some "Alpha".data, Feed := some "x".data },
             { Title := some "ALPHA".data, Feed := some "y".data }])).getProjectPageURL
      "Alpha".data "fb".data ≠
     ((newResolver []).init
      (some [{ Title := some "Alpha".data, Feed := some "x".data },
             { Title := some "ALPHA".data, Feed := some "y".data }])).getProjectPageURL
      "ALPHA".data "fb".data) := by
  decide

/-- Claim C4, amended: `getProjectPageURL` tries the exact trimmed
title, then the trimmed-and-lowercased title, and on a hit returns
`<base>#list=<slug>&display=table` with `<base>` fixed at
construction.  Provided no two valid rows of the dataset carry
case-insensitively equal titles with different slugs, every case
variant of a stored title (any `v` whose trimmed lowercased form
equals the stored title's lowercased form) resolves to that one URL. -/
theorem resolver_case_variant_resolves (origin fb : JStr) (rows : List ListRow)
    (row : ListRow) (t f v : JStr)
    (hmem : row ∈ rows) (hv : validPair row = some (t, f))
    (H : rowsCaseCompatible rows)
    (hvar : lowerStr (jsTrim v) = lowerStr t) :
    ((newResolver origin).init (some rows)).getProjectPageURL v fb =
      origin ++ "/team/projects/".data ++ "#list=".data ++ f ++
        "&display=table".data := by
  obtain ⟨htne, hfne⟩ := validPair_props hv
  cases rows with
  | nil => simp at hmem
  | cons row0 rest =>
    set R := (newResolver origin).init (some (row0 :: rest)) with hR
    have hload : R.isLoaded = true := rfl
    have hbase : R.baseURL = origin ++ "/team/projects/".data := rfl
    have hmap : R.listsMapping = loadListsMapping emptyMapping (row0 :: rest) := rfl
    have hvne : v ≠ [] := by
      intro hveq
      subst hveq
      have : lowerStr t = [] := hvar.symm
      rw [lowerStr_eq_nil_iff] at this
      exact htne this
    have hlower : R.listsMapping (lowerStr (jsTrim v)) = some f := by
      rw [hmap, hvar]
      exact (loadListsMapping_written _ emptyMapping
        (rowsCaseCompatible_compatible H) hmem hv).2
    cases hexact : R.listsMapping (jsTrim v) with
    | none =>
      rw [← hbase]
      apply getPPU_found_lower R v fb f hload hvne _ hlower hfne
      rw [hexact]
      rfl
    | some x =>
      have hxf : x = f := by
        have horigin := loadListsMapping_origin (row0 :: rest) emptyMapping (jsTrim v)
        rw [← hmap] at horigin
        rcases horigin with h | h
        · rw [hexact] at h
          simp [emptyMapping] at h
        · obtain ⟨row2, hmem2, t2, f2, hv2, hk2, he2⟩ := h
          rw [hexact] at he2
          rw [Option.some_inj] at he2
          have hf2 : f2 = f := by
            apply rowsCaseCompatible_apply H hmem2 hmem hv2 hv
            rcases hk2 with hk2 | hk2
            · rw [← hk2]
              exact hvar
            · rw [hk2, lowerStr_idem] at hvar
              exact hvar
          rw [he2, hf2]
      subst hxf
      rw [← hbase]
      exact getPPU_found_exact R v fb x hload hvne hexact hfne

/-- Witness for `resolver_case_variant_resolves` at a concrete input:
with the single table entry `Alpha Project → alpha`, the variant
`ALPHA PROJECT` resolves to the canonical list URL. -/
theorem resolver_case_variant_resolves_witness :
    ((newResolver []).init
      (some [{ Title := some "Alpha Project".data, Feed := some "alpha".data }])).getProjectPageURL
      "ALPHA PROJECT".data "#".data =
      ([] : JStr) ++ "/team/projects/".data ++ "#list=".data ++ "alpha".data ++
        "&display=table".data :=
  resolver_case_variant_resolves [] "#".data
    [{ Title := some "Alpha Project".data, Feed := some "alpha".data }]
    { Title := some "Alpha Project".data, Feed := some "alpha".data }
    "Alpha Project".data "alpha".data "ALPHA PROJECT".data
    (List.mem_singleton_self _) (by decide) (by decide) (by decide)

/-- Claim C5: `getProjectPageURL` (a total function — it never throws)
returns the supplied fallback unchanged whenever the resolver is not
loaded, the title is empty, or neither the trimmed title nor its
lowercased form is a key of the lookup table. -/
theorem getProjectPageURL_fallback (r : NLPURLResolver) (title fb : JStr)
    (h : r.isLoaded = false ∨ title = [] ∨
      (r.listsMapping (jsTrim title) = none ∧
       r.listsMapping (lowerStr (jsTrim title)) = none)) :
    r.getProjectPageURL title fb = fb := by
  rcases h with h | rfl | ⟨h1, h2⟩
  · unfold NLPURLResolver.getProjectPageURL
    simp [h]
  · unfold NLPURLResolver.getProjectPageURL
    cases r.isLoaded <;> simp
  · exact getPPU_miss r title fb (by rw [h1]; rfl) (by rw [h2]; rfl)

/-- Witness for `getProjectPageURL_fallback` at a concrete input: a
freshly constructed (never-initialized) resolver returns the fallback. -/
theorem getProjectPageURL_fallback_witness :
    (newResolver []).getProjectPageURL "T".data "fb".data = "fb".data :=
  getProjectPageURL_fallback _ _ _ (Or.inl rfl)

/-- Claim C6: for every record list, index and mode flag, an empty or
all-whitespace query makes `searchFeeds` return the empty list (the
model is a total function, so no error is possible). -/
theorem searchFeeds_empty_query (query : JStr) (feeds : List Feed)
    (fuseInstance : Option Fuse) (useFuzzy : Bool)
    (h : query = [] ∨ ∀ c ∈ query, isWS c = true) :
    searchFeeds query feeds fuseInstance useFuzzy = [] := by
  have htrim : jsTrim query = [] := by
    rw [jsTrim_eq_nil_iff]
    rcases h with rfl | h
    · intro c hc
      simp at hc
    · exact h
  unfold searchFeeds
  rw [if_pos htrim]

/-- Witness for `searchFeeds_empty_query` at a concrete input: a
single-space query against a non-empty record list in fuzzy mode. -/
theorem searchFeeds_empty_query_witness :
    searchFeeds " ".data [feedBlank] none true = [] :=
  searchFeeds_empty_query _ _ _ _ (Or.inr (by decide))

/-- Claim C7, counterexample: the claim that the table maps BOTH the
exact-cased and the lowercased trimmed title of EVERY valid source row
to that row's slug fails: with rows `(A, x)` and `(a, y)`, row `(A, x)`
is valid and its lowercased title is `a`, yet the built table's entry
at `a` is not `x` (the later row overwrote it). -/
theorem lookup_table_counterexample :
    (({ Title := some "A".data, Feed := some "x".data } : ListRow) ∈
      ([{ Title := some "A".data, Feed := some "x".data },
        { Title := some "a".data, Feed := some "y".data }] : List ListRow)) ∧
    validPair { Title := some "A".data, Feed := some "x".data } =
      some ("A".data, "x".data) ∧
    lowerStr "A".data = "a".data ∧
    loadListsMapping emptyMapping
      [{ Title := some "A".data, Feed := some "x".data },
       { Title := some "a".data, Feed := some "y".data }] "a".data ≠
      some "x".data := by
  decide

/-- Claim C7, amended: provided no two valid rows write the same
dictionary key with different slugs, the table built from an empty
dictionary maps, for every valid source row, both the exact-cased
trimmed title and its lowercased form to that row's slug; moreover
every present key is non-empty and originates from some valid row
(rows missing either field contribute no entries). -/
theorem lookup_table_entries (rows : List ListRow) (H : rowsCompatible rows) :
    (∀ row ∈ rows, ∀ t f, validPair row = some (t, f) →
      loadListsMapping emptyMapping rows t = some f ∧
      loadListsMapping emptyMapping rows (lowerStr t) = some f) ∧
    (∀ k, loadListsMapping emptyMapping rows k ≠ none →
      k ≠ [] ∧ ∃ row ∈ rows, ∃ t f, validPair row = some (t, f) ∧
        (k = t ∨ k = lowerStr t)) := by
  constructor
  · intro row hmem t f hv
    exact loadListsMapping_written rows emptyMapping H hmem hv
  · intro k hk
    rcases loadListsMapping_origin rows emptyMapping k with h | h
    · exact absurd h hk
    · obtain ⟨row, hmem, t, f, hv, hkk, _⟩ := h
      refine ⟨?_, row, hmem, t, f, hv, hkk⟩
      obtain ⟨htne, _⟩ := validPair_props hv
      rcases hkk with rfl | rfl
      · exact htne
      · rw [Ne, lowerStr_eq_nil_iff]
        exact htne

/-- Witness for `lookup_table_entries` at a concrete input: the table
built from the single row `Alpha → x` has the lowercased entry. -/
theorem lookup_table_entries_witness :
    loadListsMapping emptyMapping
      [({ Title := some "Alpha".data, Feed := some "x".data } : ListRow)]
      "alpha".data = some "x".data := by
  have h := (lookup_table_entries
    [{ Title := some "Alpha".data, Feed := some "x".data }] (by decide)).1
    { Title := some "Alpha".data, Feed := some "x".data }
    (List.mem_singleton_self _) "Alpha".data "x".data (by decide)
  have h2 := h.2
  rw [show lowerStr "Alpha".data = "alpha".data from by decide] at h2
  exact h2

/-- Claim C8: every record produced by feed normalization comes from a
source row through `normalizeRow`, whose searchable fields are total
strings by construction; `Title`/`Description` receive their
placeholders when all their source columns are absent or blank, and
`Team`/`Tags`/`Location` default to the empty string. -/
theorem feed_normalization_defaults (rows : List RawRow) (feeds : List Feed)
    (h : loadProjectFeeds rows = Except.ok feeds) :
    ∀ f ∈ feeds, ∃ r ∈ rows, f = normalizeRow r ∧
      (trimNonempty r.Title = none → trimNonempty r.Name = none →
        f.Title = noTitleStr) ∧
      (trimNonempty r.Description = none → trimNonempty r.About = none →
        f.Description = noDescriptionStr) ∧
      (trimNonempty r.Team = none → f.Team = []) ∧
      (trimNonempty r.Tags = none → f.Tags = []) ∧
      (trimNonempty r.Location = none → f.Location = []) := by
  unfold loadProjectFeeds at h
  split at h
  · exact absurd h (by simp)
  · rw [Except.ok.injEq] at h
    subst h
    intro f hf
    rw [List.mem_map] at hf
    obtain ⟨r, hr, rfl⟩ := hf
    refine ⟨r, hr, rfl, ?_, ?_, ?_, ?_, ?_⟩
    · intro h1 h2
      show pick2 r.Title r.Name noTitleStr = noTitleStr
      unfold pick2
      rw [h1, h2]
    · intro h1 h2
      show pick2 r.Description r.About noDescriptionStr = noDescriptionStr
      unfold pick2
      rw [h1, h2]
    · intro h1
      show pick1 r.Team [] = []
      unfold pick1
      rw [h1]
    · intro h1
      show pick1 r.Tags [] = []
      unfold pick1
      rw [h1]
    · intro h1
      show pick1 r.Location [] = []
      unfold pick1
      rw [h1]

/-- Witness for `feed_normalization_defaults` at a concrete input: a
source row with every column absent normalizes to the title
placeholder and the empty team string. -/
theorem feed_normalization_defaults_witness :
    (normalizeRow ({} : RawRow)).Title = noTitleStr ∧
    (normalizeRow ({} : RawRow)).Team = [] := by
  have h := feed_normalization_defaults [{}] [normalizeRow {}] (by rfl)
    (normalizeRow {}) (by simp)
  obtain ⟨r, hr, heq, hT, _, hTeam, _, _⟩ := h
  rw [List.mem_singleton] at hr
  subst hr
  exact ⟨hT rfl rfl, hTeam rfl⟩

/-- Claim C9 (the fuzzy engine is modelled from the spec's observable
contract for the opaque Fuse.js library): for a fixed query, record
set and distance function, raising the threshold never removes a
result — fuzzy search through `searchFeeds` at the lower threshold is
a subset of the result at the higher threshold. -/
theorem fuzzy_threshold_monotone (query : JStr) (feeds : List Feed)
    (fu1 fu2 : Fuse) (hfe : fu1.feeds = fu2.feeds) (hd : fu1.dist = fu2.dist)
    (ht : fu1.threshold ≤ fu2.threshold) :
    ∀ res ∈ searchFeeds query feeds (some fu1) true,
      res ∈ searchFeeds query feeds (some fu2) true := by
  intro res hres
  unfold searchFeeds at hres ⊢
  by_cases hq : jsTrim query = []
  · rw [if_pos hq] at hres
    simp at hres
  · rw [if_neg hq] at hres ⊢
    show res ∈ fuseSearch fu2 query
    have hres2 : res ∈ fuseSearch fu1 query := hres
    unfold fuseSearch at hres2 ⊢
    rw [List.mem_map] at hres2 ⊢
    obtain ⟨p, hp, rfl⟩ := hres2
    refine ⟨p, ?_, rfl⟩
    rw [mem_sortByScore] at hp ⊢
    rw [List.mem_filter] at hp ⊢
    obtain ⟨hmem, hle⟩ := hp
    constructor
    · rw [← hfe, ← hd]
      exact hmem
    · rw [decide_eq_true_eq] at hle ⊢
      exact le_trans hle ht

/-- Witness for `fuzzy_threshold_monotone` at a concrete input: a
result found at threshold 0 is still found at threshold 1. -/
theorem fuzzy_threshold_monotone_witness :
    ({ item := feedBlank, score := some 0 } : SearchResult) ∈
      searchFeeds "a".data [] (some fuseHigh) true :=
  fuzzy_threshold_monotone "a".data [] fuseLow fuseHigh rfl rfl (by decide)
    _ (by decide)

/-- Claim C10: for a resolver successfully initialized from a
reference dataset and any non-empty all-whitespace title, resolution
returns the fallback: the title passes the JavaScript emptiness check
but trims to the empty string, which is never a table key (all stored
keys are non-empty), so both lookups miss. -/
theorem whitespace_title_fallback (origin fb t : JStr) (rows : List ListRow)
    (hrows : rows ≠ []) (ht : t ≠ []) (hws : ∀ c ∈ t, isWS c = true) :
    ((newResolver origin).init (some rows)).getProjectPageURL t fb = fb := by
  have htrim : jsTrim t = [] := (jsTrim_eq_nil_iff t).mpr hws
  have hnil : ((newResolver origin).init (some rows)).listsMapping [] = none := by
    cases rows with
    | nil => exact absurd rfl hrows
    | cons row rest =>
      show loadListsMapping emptyMapping (row :: rest) [] = none
      exact loadListsMapping_nil_key _ _ rfl
  apply getPPU_miss
  · rw [htrim, hnil]
    rfl
  · rw [htrim]
    show jsTruthy (((newResolver origin).init (some rows)).listsMapping []) = false
    rw [hnil]
    rfl

/-- Witness for `whitespace_title_fallback` at a concrete input: a
single-space title against a loaded one-entry table. -/
theorem whitespace_title_fallback_witness :
    ((newResolver []).init
      (some [{ Title := some "A".data, Feed := some "x".data }])).getProjectPageURL
      " ".data "fb".data = "fb".data :=
  whitespace_title_fallback _ _ _ _ (by decide) (by decide) (by decide)
